import Mathlib

/-!
Shallow embedding of the core of the `pack` CLI (src/src/index.ts and
src/src/concept.ts): literal pattern compilation, the per-line match
scanner, context-window extraction and merging, output token statistics,
fatal exit codes, and the concept-mode auto-tuner.
-/

namespace Pack

/-- Characters escaped by `escRegex` (index.ts:402-405), i.e. the class
`[.*+?^$\x7b\x7d()|[\]\\]`. -/
def metaChars : List Char :=
  ['.', '*', '+', '?', '^', '$', '{', '}', '(', ')', '|', '[', ']', '\\']

def isRegexMeta (c : Char) : Bool := metaChars.contains c

/-- Character-level model of `escRegex` (index.ts:402-405): each regex
metacharacter is preceded by a backslash. -/
def escRegexChars : List Char → List Char
  | [] => []
  | c :: rest =>
    if isRegexMeta c then '\\' :: c :: escRegexChars rest
    else c :: escRegexChars rest

def escRegex (lit : String) : String := (escRegexChars lit.data).asString

/-- Model of `strings.map(escRegex).join("|")` (index.ts:924): JavaScript
`Array.prototype.join` with separator `"|"`. -/
def jsJoin (sep : String) : List String → String
  | [] => ""
  | [x] => x
  | x :: rest => x ++ sep ++ jsJoin sep rest

/-- Prepend a character onto the first chunk of a list of chunks. -/
def consHead (c : Char) : List (List Char) → List (List Char)
  | [] => [[c]]
  | a :: as => (c :: a) :: as

/-- Parser for the restricted regex sources produced by the pattern
compiler: alternations of backslash-escaped literals. A top-level `|`
separates alternatives, a backslash escapes the next character, and every
other character stands for itself. This models how the regex engine
interprets `new RegExp(strings.map(escRegex).join("|"))` (index.ts:923-924). -/
def parseAlts : List Char → List (List Char)
  | [] => [[]]
  | c :: rest =>
    if c = '\\' then
      match rest with
      | [] => [['\\']]
      | d :: rest' => consHead d (parseAlts rest')
    else if c = '|' then [] :: parseAlts rest
    else consHead c (parseAlts rest)

/-- Semantic model of a compiled `RegExp` of the restricted shape the
pattern compiler emits: an ordered list of literal alternatives plus the
`i` flag. -/
structure RegExpLit where
  alts : List (List Char)
  ignoreCase : Bool

/-- Model of `new RegExp(strings.map(escRegex).join("|"), regexFlags)` with
`regexFlags = caseSensitive ? "" : "i"` (index.ts:922-924). -/
def compileRegex (strings : List String) (caseSensitive : Bool) : RegExpLit :=
  { alts := parseAlts (jsJoin "|" (strings.map escRegex)).data
    ignoreCase := !caseSensitive }

/-- Single-character comparison; under the `i` flag both sides are case
folded (ASCII model of the engine's canonicalisation). -/
def chMatch (ci : Bool) (p t : Char) : Bool :=
  if ci then p.toLower == t.toLower else p == t

/-- Does alternative `p` match at the front of `t`? -/
def matchHere (ci : Bool) : List Char → List Char → Bool
  | [], _ => true
  | _ :: _, [] => false
  | p :: ps, t :: ts => chMatch ci p t && matchHere ci ps ts

/-- First alternative (in pattern order) matching at the front of `s`;
returns the length of the matched text. -/
def tryAlts (ci : Bool) (alts : List (List Char)) (s : List Char) : Option Nat :=
  match alts with
  | [] => none
  | a :: rest => if matchHere ci a s then some a.length else tryAlts ci rest s

/-- Scanning core of the engine: try positions `pos`, `pos+1`, … while fuel
lasts, returning the leftmost match position and its length. -/
def firstMatchAux (re : RegExpLit) (text : List Char) :
    Nat → Nat → Option (Nat × Nat)
  | _, 0 => none
  | pos, fuel + 1 =>
    match tryAlts re.ignoreCase re.alts (text.drop pos) with
    | some len => some (pos, len)
    | none => firstMatchAux re text (pos + 1) fuel

/-- Leftmost match at or after `pos`; positions `pos .. text.length` are
tried, as the engine does. -/
def firstMatchFrom (re : RegExpLit) (text : List Char) (pos : Nat) :
    Option (Nat × Nat) :=
  firstMatchAux re text pos (text.length + 1 - pos)

/-- Model of the `while ((match = linePattern.exec(line)) !== null)` loop of
`findAllMatches` (index.ts:428-434): repeated scanning, resuming at the end
of the previous match. The fuel bounds the number of iterations; it never
runs out when every alternative is nonempty (the source filters empty
search strings at index.ts:902). -/
def execLoop (re : RegExpLit) (line : List Char) : Nat → Nat → List (Nat × Nat)
  | _, 0 => []
  | pos, fuel + 1 =>
    match firstMatchFrom re line pos with
    | none => []
    | some (p, len) => (p, len) :: execLoop re line (p + len) fuel

def scanLine (re : RegExpLit) (line : List Char) : List (Nat × Nat) :=
  execLoop re line 0 (line.length + 1)

/-- Split a character list at every occurrence of `c` (JavaScript
`String.prototype.split` with a single-character separator). -/
def splitOnChar (c : Char) : List Char → List (List Char)
  | [] => [[]]
  | d :: rest =>
    if d = c then [] :: splitOnChar c rest
    else consHead d (splitOnChar c rest)

/-- Model of `content.split('\n')` (index.ts:422, 445). -/
def jsSplitNewline (content : String) : List String :=
  (splitOnChar '\n' content.data).map List.asString

structure MatchPosition where
  line : Nat
  column : Nat
  matchText : String
deriving DecidableEq, Repr

structure ContextWindow where
  startLine : Nat
  endLine : Nat
  lines : List String
  «matches» : List MatchPosition
deriving DecidableEq, Repr

/-- The matches of one line, at 0-based line index `p.1`: the body of the
`lines.forEach((line, lineIndex) => …)` loop of `findAllMatches`
(index.ts:425-435). -/
def lineMatches (re : RegExpLit) (p : Nat × String) : List MatchPosition :=
  (scanLine re p.2.data).map fun q =>
    { line := p.1 + 1
      column := q.1
      matchText := ((p.2.data.drop q.1).take q.2).asString }

/-- Model of `findAllMatches` (index.ts:421-438): split the content on
newlines and scan each line left to right, recording 1-based line numbers,
0-based columns and the matched text. -/
def findAllMatches (content : String) (re : RegExpLit) : List MatchPosition :=
  (jsSplitNewline content).enum.flatMap (lineMatches re)

/-- Model of `RegExp.prototype.test` as used by `fileContainsAnyStrings`
(index.ts:525): does the pattern match anywhere in the text? -/
def regexTest (re : RegExpLit) (text : String) : Bool :=
  (firstMatchFrom re text.data 0).isSome

/-- JavaScript `Array.prototype.slice(a, b)` for in-range indices. -/
def jsSlice {α : Type} (l : List α) (a b : Nat) : List α :=
  (l.drop a).take (b - a)

/-- Initial one-match candidate window (index.ts:453-463). -/
def mkWindow (lines : List String) (contextLines : Nat) (m : MatchPosition) :
    ContextWindow :=
  let startLine := max 1 (m.line - contextLines)
  let endLine := min lines.length (m.line + contextLines)
  { startLine := startLine
    endLine := endLine
    lines := jsSlice lines (startLine - 1) endLine
    «matches» := [m] }

/-- The merge sweep of `extractContextWindows` (index.ts:466-486): `cur` is
the accumulator window (`current` in the source); a candidate whose
`startLine` is within `current.endLine + 1` is absorbed, otherwise the
accumulator is flushed and the candidate becomes the new accumulator. -/
def mergeLoop (lines : List String) :
    Option ContextWindow → List ContextWindow → List ContextWindow
  | none, [] => []
  | some c, [] => [c]
  | none, w :: ws => mergeLoop lines (some w) ws
  | some c, w :: ws =>
    if w.startLine ≤ c.endLine + 1 then
      mergeLoop lines
        (some { startLine := c.startLine
                endLine := max c.endLine w.endLine
                lines := jsSlice lines (c.startLine - 1) (max c.endLine w.endLine)
                «matches» := c.«matches» ++ w.«matches» }) ws
    else
      c :: mergeLoop lines (some w) ws

/-- Model of `extractContextWindows` (index.ts:440-489). -/
def extractContextWindows (content : String) (re : RegExpLit)
    (contextLines : Nat) : List ContextWindow :=
  let lines := jsSplitNewline content
  let ms := findAllMatches content re
  if ms.isEmpty then []
  else mergeLoop lines none (ms.map (mkWindow lines contextLines))

/-- The per-window invariant of the data model: the bounds are ordered and
every carried match lies inside them. -/
def windowInv (w : ContextWindow) : Prop :=
  w.startLine ≤ w.endLine ∧
    ∀ m ∈ w.«matches», w.startLine ≤ m.line ∧ m.line ≤ w.endLine

/-- JavaScript truthiness of the `contextLines : number | undefined` value
tested at index.ts:1112 (`undefined` and `0` are falsy). -/
def jsTruthyNat : Option Nat → Bool
  | none => false
  | some n => !(n == 0)

/-- Model of index.ts:1050-1051: `contextLines = hasSearchStrings ?
(parsed.lines || parsed.l) : undefined`, with `linesArg` standing for the
combined `-l` or `--lines` argument. -/
def effectiveContextLines (searchStrings : List String)
    (linesArg : Option Nat) : Option Nat :=
  if 0 < searchStrings.length then linesArg else none

/-- Model of `windows.reduce((sum, w) => sum + w.matches.length, 0)`
(index.ts:1117, 1121). -/
def sumWindowMatches (ws : List ContextWindow) : Nat :=
  ws.foldl (fun s w => s + w.«matches».length) 0

/-- JavaScript `String.prototype.padStart`. -/
def padStart (s : String) (n : Nat) (c : Char) : String :=
  if n ≤ s.length then s else (List.replicate (n - s.length) c).asString ++ s

/-- Line-numbered rendering of one window (index.ts:502-505). -/
def renderWindow (w : ContextWindow) : String :=
  w.lines.enum.foldl
    (fun output p =>
      output ++ padStart (toString (w.startLine + p.1)) 6 ' ' ++ "│ " ++ p.2 ++ "\n")
    ""

/-- Model of `formatContextWindows` (index.ts:491-509): windows rendered in
order, separated by an ellipsis marker once output is nonempty. -/
def formatContextWindows (windows : List ContextWindow) : String :=
  if windows.isEmpty then ""
  else
    windows.foldl
      (fun output w =>
        (if output ≠ "" then output ++ "\n  ...\n" else output) ++ renderWindow w)
      ""

/-- Per-file XML output (index.ts:1111-1134): windowed extract when
`contextLines` is truthy, otherwise the verbatim file content. -/
def xmlFileOutput (relPath content : String) (re : RegExpLit)
    (contextLines : Option Nat) : String :=
  if jsTruthyNat contextLines then
    let windows := extractContextWindows content re (contextLines.getD 0)
    if 0 < windows.length then
      let formatted := formatContextWindows windows
      if formatted ≠ "" then
        "<file path=\"" ++ relPath ++ "\" matches=\""
          ++ toString (sumWindowMatches windows) ++ "\" windows=\""
          ++ toString windows.length ++ "\">\n" ++ formatted ++ "</file>\n\n"
      else ""
    else ""
  else
    "<file path=\"" ++ relPath ++ "\">\n" ++ content ++ "\n</file>\n\n"

/-- JavaScript `Math.round(a / b)` for nonnegative operands:
`floor(a / b + 1 / 2)`. -/
def jsRoundDiv (a b : Nat) : Nat := (2 * a + b) / (2 * b)

/-- Per-file token figure `Math.round(fileSize / 4)` where `fileSize` is the
length of the file's rendered output (index.ts:1139-1140, 1199-1200). -/
def fileTokens (fileOutput : String) : Nat := jsRoundDiv fileOutput.length 4

/-- Final summary figure `Math.round(totalChars / 4)` (index.ts:1265). -/
def totalTokensOf (totalChars : Nat) : Nat := jsRoundDiv totalChars 4

/-- The three fatal outcome categories of a run: unreadable config file
(index.ts:635-641), no candidate files after extension filtering
(index.ts:972-975), and candidates but no content matches
(index.ts:1019-1022). -/
inductive FatalOutcome where
  | invalidConfig
  | noCandidates
  | noMatches
deriving DecidableEq

/-- The `process.exit` status used for each fatal outcome
(index.ts:640, 974, 1021). -/
def exitCode : FatalOutcome → Nat
  | .invalidConfig => 1
  | .noCandidates => 2
  | .noMatches => 3

end Pack

namespace Pack.Concept

/-- Insert a space between a lowercase letter and a following uppercase
letter: the `replace(/([a-z])([A-Z])/g, '$1 $2')` step of `normalizeToken`
(concept.ts:24). -/
def insertCamelSpaces : List Char → List Char
  | c1 :: c2 :: rest =>
    if c1.isLower && c2.isUpper then c1 :: ' ' :: insertCamelSpaces (c2 :: rest)
    else c1 :: insertCamelSpaces (c2 :: rest)
  | l => l

def isDotDash (c : Char) : Bool := c == '.' || c == '_' || c == '-'

/-- The `replace(/[._-]+/g, ' ')` step of `normalizeToken` (concept.ts:25):
every maximal run of `.`, `_`, `-` becomes one space. -/
def collapseSeparators : List Char → List Char
  | [] => []
  | [c] => if isDotDash c then [' '] else [c]
  | c :: d :: rest =>
    if isDotDash c then
      if isDotDash d then collapseSeparators (d :: rest)
      else ' ' :: collapseSeparators (d :: rest)
    else c :: collapseSeparators (d :: rest)

def isAlnumLower (c : Char) : Bool := c.isLower || c.isDigit

/-- Maximal runs of `[a-z0-9]` characters: the
`split(/[^a-z0-9]+/).filter(Boolean)` step of `normalizeToken`
(concept.ts:26-29). -/
def alnumRuns : List Char → List (List Char)
  | [] => []
  | [c] => if isAlnumLower c then [[c]] else []
  | c :: d :: rest =>
    if isAlnumLower c then
      if isAlnumLower d then consHead c (alnumRuns (d :: rest))
      else [c] :: alnumRuns (d :: rest)
    else alnumRuns (d :: rest)

/-- Model of `normalizeToken` (concept.ts:21-30). -/
def normalizeToken (raw : String) : List String :=
  let spaced := insertCamelSpaces raw.data
  let spaced2 := collapseSeparators spaced
  (alnumRuns (spaced2.map Char.toLower)).map List.asString

/-- Maximal runs of non-whitespace characters: the `split(/\s+/)` step of
`tokenizeContent` (concept.ts:36), up to empty pieces that normalize to
nothing anyway. -/
def nonWsRuns : List Char → List (List Char)
  | [] => []
  | [c] => if c.isWhitespace then [] else [[c]]
  | c :: d :: rest =>
    if c.isWhitespace then nonWsRuns (d :: rest)
    else if d.isWhitespace then [c] :: nonWsRuns (d :: rest)
    else consHead c (nonWsRuns (d :: rest))

/-- Model of `tokenizeContent` (concept.ts:32-40): replace `\r` by `\n`,
split on whitespace, normalize each rough token. -/
def tokenizeContent (content : String) : List String :=
  (nonWsRuns (content.data.map fun c => if c = '\r' then '\n' else c)).flatMap
    fun t => normalizeToken t.asString

/-- Split at `\n` or `\r\n`: JavaScript `split(/\r?\n/)` (concept.ts:250). -/
def splitRN : List Char → List (List Char)
  | [] => [[]]
  | [c] => if c = '\n' then [[], []] else [[c]]
  | c :: d :: rest =>
    if c = '\n' then [] :: splitRN (d :: rest)
    else if c = '\r' && d = '\n' then [] :: splitRN rest
    else consHead c (splitRN (d :: rest))

def splitLinesRN (s : String) : List String := (splitRN s.data).map List.asString

/-- Does `sub` occur as a contiguous run inside the second list? -/
def hasInfix (sub : List Char) : List Char → Bool
  | [] => sub.isEmpty
  | c :: rest => sub.isPrefixOf (c :: rest) || hasInfix sub rest

/-- JavaScript `String.prototype.includes` (substring containment). -/
def containsSub (s sub : String) : Bool := hasInfix sub.data s.data

/-- Insertion step of the ascending numeric sort
`matchLines.sort((a,b) => a-b)` (concept.ts:258). -/
def insertAsc (n : Nat) : List Nat → List Nat
  | [] => [n]
  | m :: rest => if n ≤ m then n :: m :: rest else m :: insertAsc n rest

def sortAsc : List Nat → List Nat
  | [] => []
  | n :: rest => insertAsc n (sortAsc rest)

/-- Cluster counting loop of `estimateTokensFor` (concept.ts:259-264):
`last` starts at `-Infinity` (modelled by `none`), and a match line starts a
new cluster when its gap from `last` exceeds `gap`. -/
def countClustersAux (gap : Nat) : Option Nat → List Nat → Nat
  | _, [] => 0
  | last, m :: rest =>
    (match last with
     | none => 1
     | some l => if gap < m - l then 1 else 0) + countClustersAux gap (some m) rest

def countClusters (gap : Nat) (ms : List Nat) : Nat := countClustersAux gap none ms

/-- Model of `estimateTokensFor` (concept.ts:246-270); a document is
represented by its content string, the only field the source reads. -/
def estimateTokensFor (docs : List String) (keywords : List String)
    (lines : Nat) : Nat :=
  docs.foldl
    (fun total content =>
      let contentLower := content.toLower
      let parts := splitLinesRN contentLower
      let matchLines := (parts.enum.filter fun p =>
        keywords.any fun k => decide (3 ≤ k.length) && containsSub p.2 k.toLower).map
        Prod.fst
      if matchLines.isEmpty then total
      else
        let sorted := sortAsc matchLines
        let clusters := countClusters lines sorted
        let tokensInDoc := (tokenizeContent content).length
        let avgTokensPerLine := max 5 (jsRoundDiv tokensInDoc (max 1 parts.length))
        total + clusters * (2 * lines + 1) * avgTokensPerLine)
    0

/-- The auto-tuning loop of `runConceptMode` (concept.ts:279-294): tighten
context radius, then keyword count, then working-set size, until the
estimate fits the effective budget or all floors are reached. -/
def autoTuneLoop (docs keywords : List String) (effectiveBudget : Nat)
    (lines kw tf : Nat) : Nat × Nat × Nat :=
  if estimateTokensFor (docs.take tf) (keywords.take kw) lines ≤ effectiveBudget then
    (lines, kw, tf)
  else if h1 : 1 < lines then
    autoTuneLoop docs keywords effectiveBudget (max 1 (lines - 1)) kw tf
  else if h2 : 2 < kw then
    autoTuneLoop docs keywords effectiveBudget lines (max 2 (kw - 1)) tf
  else if h3 : 3 < tf then
    autoTuneLoop docs keywords effectiveBudget lines kw (max 3 (tf - 1))
  else (lines, kw, tf)
termination_by lines + kw + tf
decreasing_by all_goals omega

end Pack.Concept

namespace Pack

theorem mergeLoop_spec (lines : List String) :
    ∀ (ws : List ContextWindow) (c : ContextWindow),
      windowInv c →
      (∀ w ∈ ws, windowInv w) →
      (∀ w ∈ ws, c.startLine ≤ w.startLine) →
      List.Pairwise (fun w1 w2 => w1.startLine ≤ w2.startLine) ws →
      (∀ w' ∈ mergeLoop lines (some c) ws, c.startLine ≤ w'.startLine) ∧
      (∀ w' ∈ mergeLoop lines (some c) ws, windowInv w') ∧
      List.Pairwise (fun w1 w2 => w1.endLine + 1 < w2.startLine)
        (mergeLoop lines (some c) ws) ∧
      (mergeLoop lines (some c) ws).flatMap ContextWindow.«matches»
        = c.«matches» ++ ws.flatMap ContextWindow.«matches» := by
  intro ws
  induction ws with
  | nil =>
    intro c hc _ _ _
    refine ⟨?_, ?_, ?_, ?_⟩
    · intro w' hw'
      rcases List.mem_singleton.mp hw' with rfl
      exact le_refl _
    · intro w' hw'
      rcases List.mem_singleton.mp hw' with rfl
      exact hc
    · exact List.pairwise_singleton _ _
    · simp [mergeLoop]
  | cons w ws ih =>
    intro c hc hws hstart hpair
    have hcw : c.startLine ≤ w.startLine := hstart w (List.mem_cons_self w ws)
    have hwinv : windowInv w := hws w (List.mem_cons_self w ws)
    have hws' : ∀ u ∈ ws, windowInv u := fun u hu => hws u (List.mem_cons_of_mem w hu)
    have hpair' := List.pairwise_cons.mp hpair
    by_cases hm : w.startLine ≤ c.endLine + 1
    · have hinv' : windowInv
          { startLine := c.startLine
            endLine := max c.endLine w.endLine
            lines := jsSlice lines (c.startLine - 1) (max c.endLine w.endLine)
            «matches» := c.«matches» ++ w.«matches» } := by
        constructor
        · have h1 := hc.1
          simp only []
          omega
        · intro m hmm
          rcases List.mem_append.mp hmm with h | h
          · have := hc.2 m h
            simp only []
            omega
          · have h1 := hwinv.2 m h
            simp only []
            omega
      have key := ih
        { startLine := c.startLine
          endLine := max c.endLine w.endLine
          lines := jsSlice lines (c.startLine - 1) (max c.endLine w.endLine)
          «matches» := c.«matches» ++ w.«matches» }
        hinv' hws' (fun u hu => hstart u (List.mem_cons_of_mem w hu)) hpair'.2
      have heq : mergeLoop lines (some c) (w :: ws) = mergeLoop lines
          (some { startLine := c.startLine
                  endLine := max c.endLine w.endLine
                  lines := jsSlice lines (c.startLine - 1) (max c.endLine w.endLine)
                  «matches» := c.«matches» ++ w.«matches» }) ws := by
        simp only [mergeLoop, if_pos hm]
      rw [heq]
      refine ⟨key.1, key.2.1, key.2.2.1, ?_⟩
      rw [key.2.2.2, List.flatMap_cons, List.append_assoc]
    · have hgap : c.endLine + 1 < w.startLine := by omega
      have key := ih w hwinv hws' hpair'.1 hpair'.2
      have heq : mergeLoop lines (some c) (w :: ws)
          = c :: mergeLoop lines (some w) ws := by
        simp only [mergeLoop, if_neg hm]
      rw [heq]
      refine ⟨?_, ?_, ?_, ?_⟩
      · intro w' hw'
        rcases List.mem_cons.mp hw' with rfl | h
        · exact le_refl _
        · exact le_trans hcw (key.1 w' h)
      · intro w' hw'
        rcases List.mem_cons.mp hw' with rfl | h
        · exact hc
        · exact key.2.1 w' h
      · rw [List.pairwise_cons]
        exact ⟨fun w' hw' => lt_of_lt_of_le hgap (key.1 w' hw'), key.2.2.1⟩
      · rw [List.flatMap_cons, key.2.2.2, List.flatMap_cons]

theorem lineMatches_line_eq (re : RegExpLit) (p : Nat × String) :
    ∀ m ∈ lineMatches re p, m.line = p.1 + 1 := by
  intro m hm
  simp only [lineMatches, List.mem_map] at hm
  obtain ⟨q, _, rfl⟩ := hm
  rfl

theorem enumFrom_matches_bounds (re : RegExpLit) :
    ∀ (ls : List String) (n : Nat),
      ∀ m ∈ (List.enumFrom n ls).flatMap (lineMatches re),
        n + 1 ≤ m.line ∧ m.line ≤ n + ls.length := by
  intro ls
  induction ls with
  | nil =>
    intro n m hm
    simp at hm
  | cons s rest ih =>
    intro n m hm
    rw [List.enumFrom_cons, List.flatMap_cons] at hm
    rcases List.mem_append.mp hm with h | h
    · have hl := lineMatches_line_eq re (n, s) m h
      simp only [List.length_cons]
      omega
    · have hb := ih (n + 1) m h
      simp only [List.length_cons]
      omega

theorem enumFrom_matches_sorted (re : RegExpLit) :
    ∀ (ls : List String) (n : Nat),
      List.Pairwise (fun m1 m2 : MatchPosition => m1.line ≤ m2.line)
        ((List.enumFrom n ls).flatMap (lineMatches re)) := by
  intro ls
  induction ls with
  | nil =>
    intro n
    simp
  | cons s rest ih =>
    intro n
    rw [List.enumFrom_cons, List.flatMap_cons, List.pairwise_append]
    refine ⟨?_, ih (n + 1), ?_⟩
    · apply List.pairwise_of_forall_mem_list
      intro a ha b hb
      rw [lineMatches_line_eq re (n, s) a ha, lineMatches_line_eq re (n, s) b hb]
    · intro a ha b hb
      have h1 := lineMatches_line_eq re (n, s) a ha
      have h2 := (enumFrom_matches_bounds re rest (n + 1) b hb).1
      omega

theorem findAllMatches_line_bounds (content : String) (re : RegExpLit) :
    ∀ m ∈ findAllMatches content re,
      1 ≤ m.line ∧ m.line ≤ (jsSplitNewline content).length := by
  intro m hm
  unfold findAllMatches at hm
  rw [List.enum_eq_enumFrom] at hm
  have := enumFrom_matches_bounds re (jsSplitNewline content) 0 m hm
  omega

theorem findAllMatches_sorted (content : String) (re : RegExpLit) :
    List.Pairwise (fun m1 m2 : MatchPosition => m1.line ≤ m2.line)
      (findAllMatches content re) := by
  unfold findAllMatches
  rw [List.enum_eq_enumFrom]
  exact enumFrom_matches_sorted re _ 0

theorem mkWindow_startLine (lines : List String) (R : Nat) (m : MatchPosition) :
    (mkWindow lines R m).startLine = max 1 (m.line - R) := rfl

theorem mkWindow_endLine (lines : List String) (R : Nat) (m : MatchPosition) :
    (mkWindow lines R m).endLine = min lines.length (m.line + R) := rfl

theorem mkWindow_matchList (lines : List String) (R : Nat) (m : MatchPosition) :
    (mkWindow lines R m).«matches» = [m] := rfl

theorem mkWindow_inv (lines : List String) (R : Nat) (m : MatchPosition)
    (h1 : 1 ≤ m.line) (h2 : m.line ≤ lines.length) :
    windowInv (mkWindow lines R m) := by
  constructor
  · rw [mkWindow_startLine, mkWindow_endLine]
    omega
  · intro m' hm'
    rw [mkWindow_matchList] at hm'
    rcases List.mem_singleton.mp hm' with rfl
    rw [mkWindow_startLine, mkWindow_endLine]
    omega

theorem extractContextWindows_spec (content : String) (re : RegExpLit) (R : Nat) :
    (∀ w ∈ extractContextWindows content re R, windowInv w) ∧
    List.Pairwise (fun w1 w2 => w1.endLine + 1 < w2.startLine)
      (extractContextWindows content re R) ∧
    (extractContextWindows content re R).flatMap ContextWindow.«matches»
      = findAllMatches content re := by
  have hbounds := findAllMatches_line_bounds content re
  have hsorted := findAllMatches_sorted content re
  have hdef : extractContextWindows content re R
      = if (findAllMatches content re).isEmpty then []
        else mergeLoop (jsSplitNewline content) none
          ((findAllMatches content re).map
            (mkWindow (jsSplitNewline content) R)) := rfl
  rw [hdef]
  cases hms : findAllMatches content re with
  | nil =>
    simp
  | cons m0 ms =>
    rw [hms] at hbounds hsorted
    simp only [List.isEmpty_cons, Bool.false_eq_true, if_false, List.map_cons]
    have hstep : mergeLoop (jsSplitNewline content) none
        (mkWindow (jsSplitNewline content) R m0
          :: ms.map (mkWindow (jsSplitNewline content) R))
        = mergeLoop (jsSplitNewline content)
            (some (mkWindow (jsSplitNewline content) R m0))
            (ms.map (mkWindow (jsSplitNewline content) R)) := rfl
    rw [hstep]
    have hm0 := hbounds m0 (List.mem_cons_self m0 ms)
    have hsorted' := List.pairwise_cons.mp hsorted
    have key := mergeLoop_spec (jsSplitNewline content)
      (ms.map (mkWindow (jsSplitNewline content) R))
      (mkWindow (jsSplitNewline content) R m0)
      (mkWindow_inv _ R m0 hm0.1 hm0.2)
      ?_ ?_ ?_
    · refine ⟨key.2.1, key.2.2.1, ?_⟩
      rw [key.2.2.2, mkWindow_matchList, List.flatMap_map]
      have : ms.flatMap
          (fun m => ContextWindow.«matches» (mkWindow (jsSplitNewline content) R m))
          = ms := by
        simp [mkWindow_matchList]
      rw [this]
      rfl
    · intro w hw
      rcases List.mem_map.mp hw with ⟨m, hm, rfl⟩
      have := hbounds m (List.mem_cons_of_mem m0 hm)
      exact mkWindow_inv _ R m this.1 this.2
    · intro w hw
      rcases List.mem_map.mp hw with ⟨m, hm, rfl⟩
      rw [mkWindow_startLine, mkWindow_startLine]
      have := hsorted'.1 m hm
      omega
    · rw [List.pairwise_map]
      refine hsorted'.2.imp ?_
      intro a b hab
      rw [mkWindow_startLine, mkWindow_startLine]
      omega

theorem tryAlts_some_len (ci : Bool) :
    ∀ (alts : List (List Char)) (s : List Char) (len : Nat),
      (∀ a ∈ alts, a ≠ []) → tryAlts ci alts s = some len → 1 ≤ len := by
  intro alts
  induction alts with
  | nil =>
    intro s len _ h
    simp [tryAlts] at h
  | cons a rest ih =>
    intro s len hAlts h
    rw [tryAlts] at h
    split at h
    · have ha : a ≠ [] := hAlts a (List.mem_cons_self a rest)
      have : a.length = len := by injection h
      have : 0 < a.length := List.length_pos.mpr ha
      omega
    · exact ih s len (fun u hu => hAlts u (List.mem_cons_of_mem a hu)) h

theorem firstMatchAux_some (re : RegExpLit) (text : List Char) :
    ∀ (fuel pos p len : Nat),
      firstMatchAux re text pos fuel = some (p, len) →
      pos ≤ p ∧ tryAlts re.ignoreCase re.alts (text.drop p) = some len := by
  intro fuel
  induction fuel with
  | zero =>
    intro pos p len h
    simp [firstMatchAux] at h
  | succ fuel ih =>
    intro pos p len h
    rw [firstMatchAux] at h
    cases htry : tryAlts re.ignoreCase re.alts (text.drop pos) with
    | some l =>
      rw [htry] at h
      have h1 : pos = p ∧ l = len := by
        have := Option.some.inj h
        exact ⟨congrArg Prod.fst this, congrArg Prod.snd this⟩
      obtain ⟨rfl, rfl⟩ := h1
      exact ⟨le_refl _, htry⟩
    | none =>
      rw [htry] at h
      have := ih (pos + 1) p len h
      exact ⟨by omega, this.2⟩

theorem execLoop_strict (re : RegExpLit) (line : List Char)
    (hAlts : ∀ a ∈ re.alts, a ≠ []) :
    ∀ (fuel pos : Nat),
      (∀ q ∈ execLoop re line pos fuel, pos ≤ q.1) ∧
      List.Pairwise (fun q1 q2 : Nat × Nat => q1.1 < q2.1)
        (execLoop re line pos fuel) := by
  intro fuel
  induction fuel with
  | zero =>
    intro pos
    simp [execLoop]
  | succ fuel ih =>
    intro pos
    rw [execLoop]
    cases hf : firstMatchFrom re line pos with
    | none =>
      simp
    | some pl =>
      obtain ⟨p, len⟩ := pl
      show (∀ q ∈ (p, len) :: execLoop re line (p + len) fuel, pos ≤ q.1) ∧
        List.Pairwise (fun q1 q2 : Nat × Nat => q1.1 < q2.1)
          ((p, len) :: execLoop re line (p + len) fuel)
      simp only [firstMatchFrom] at hf
      have hp := firstMatchAux_some re line _ pos p len hf
      have hlen : 1 ≤ len := tryAlts_some_len _ _ _ _ hAlts hp.2
      have key := ih (p + len)
      constructor
      · intro q hq
        rcases List.mem_cons.mp hq with rfl | h
        · exact hp.1
        · have := key.1 q h
          omega
      · rw [List.pairwise_cons]
        refine ⟨fun q hq => ?_, key.2⟩
        have := key.1 q hq
        omega

theorem lineMatches_pairwise (re : RegExpLit)
    (hAlts : ∀ a ∈ re.alts, a ≠ []) (p : Nat × String) :
    List.Pairwise (fun m1 m2 : MatchPosition => m1.column < m2.column)
      (lineMatches re p) := by
  unfold lineMatches scanLine
  rw [List.pairwise_map]
  exact ((execLoop_strict re p.2.data hAlts (p.2.data.length + 1) 0).2).imp
    (fun h => h)

theorem enumFrom_matches_strict (re : RegExpLit)
    (hAlts : ∀ a ∈ re.alts, a ≠ []) :
    ∀ (ls : List String) (n : Nat),
      List.Pairwise (fun m1 m2 : MatchPosition =>
          m1.line < m2.line ∨ (m1.line = m2.line ∧ m1.column < m2.column))
        ((List.enumFrom n ls).flatMap (lineMatches re)) := by
  intro ls
  induction ls with
  | nil =>
    intro n
    simp
  | cons s rest ih =>
    intro n
    rw [List.enumFrom_cons, List.flatMap_cons, List.pairwise_append]
    refine ⟨?_, ih (n + 1), ?_⟩
    · refine (lineMatches_pairwise re hAlts (n, s)).imp_of_mem ?_
      intro a b ha hb hcol
      right
      exact ⟨by rw [lineMatches_line_eq re (n, s) a ha,
        lineMatches_line_eq re (n, s) b hb], hcol⟩
    · intro a ha b hb
      left
      have h1 := lineMatches_line_eq re (n, s) a ha
      have h2 := (enumFrom_matches_bounds re rest (n + 1) b hb).1
      omega

theorem findAllMatches_nodup (content : String) (re : RegExpLit)
    (hAlts : ∀ a ∈ re.alts, a ≠ []) : (findAllMatches content re).Nodup := by
  unfold findAllMatches
  rw [List.enum_eq_enumFrom]
  refine (enumFrom_matches_strict re hAlts (jsSplitNewline content) 0).imp ?_
  intro a b h heq
  subst heq
  rcases h with h | ⟨_, h⟩ <;> omega

theorem countP_eq_zero_of_flat (m : MatchPosition) (ws : List ContextWindow)
    (h : (ws.flatMap ContextWindow.«matches»).count m = 0) :
    ws.countP (fun w => decide (m ∈ w.«matches»)) = 0 := by
  rw [List.countP_eq_zero]
  intro w hw
  simp only [decide_eq_true_eq]
  intro hm
  have hmem : m ∈ ws.flatMap ContextWindow.«matches» :=
    List.mem_flatMap.mpr ⟨w, hw, hm⟩
  have := List.count_pos_iff.mpr hmem
  omega

theorem countP_eq_one_of_flat (m : MatchPosition) :
    ∀ (ws : List ContextWindow),
      (ws.flatMap ContextWindow.«matches»).count m = 1 →
      ws.countP (fun w => decide (m ∈ w.«matches»)) = 1 := by
  intro ws
  induction ws with
  | nil =>
    intro h
    simp at h
  | cons w ws ih =>
    intro h
    rw [List.flatMap_cons, List.count_append] at h
    rw [List.countP_cons]
    by_cases hm : m ∈ w.«matches»
    · have h1 : 0 < w.«matches».count m := List.count_pos_iff.mpr hm
      have h2 : (ws.flatMap ContextWindow.«matches»).count m = 0 := by omega
      rw [countP_eq_zero_of_flat m ws h2]
      simp [hm]
    · have h0 : w.«matches».count m = 0 := List.count_eq_zero.mpr hm
      rw [ih (by omega)]
      simp [hm]

/-- C1: for every file content, compiled pattern with nonempty literal
alternatives, and context radius, the matches carried by the merged windows
of `extractContextWindows` are exactly the scanner's matches (none lost,
none duplicated: each scanner match lies in exactly one window), and each
window's line range contains the lines of all its matches. -/
theorem extractContextWindows_coverage (content : String) (re : RegExpLit)
    (R : Nat) (hAlts : ∀ a ∈ re.alts, a ≠ []) :
    ((extractContextWindows content re R).flatMap ContextWindow.«matches»
        = findAllMatches content re) ∧
    (∀ m ∈ findAllMatches content re,
      (extractContextWindows content re R).countP
        (fun w => decide (m ∈ w.«matches»)) = 1) ∧
    (∀ w ∈ extractContextWindows content re R, ∀ m ∈ w.«matches»,
      w.startLine ≤ m.line ∧ m.line ≤ w.endLine) := by
  obtain ⟨hinv, _, hflat⟩ := extractContextWindows_spec content re R
  refine ⟨hflat, ?_, fun w hw => (hinv w hw).2⟩
  intro m hm
  apply countP_eq_one_of_flat
  rw [hflat]
  exact List.count_eq_one_of_mem (findAllMatches_nodup content re hAlts) hm

/-- C1 witness: the coverage theorem instantiated on the spec's Scenario A
(content `"x\nTODO\ny"`, literal `"TODO"`, radius 1), whose compiled
pattern has nonempty alternatives. -/
theorem extractContextWindows_coverage_witness :
    (∀ a ∈ (compileRegex ["TODO"] true).alts, a ≠ []) ∧
    (((extractContextWindows "x\nTODO\ny" (compileRegex ["TODO"] true) 1).flatMap
        ContextWindow.«matches»
        = findAllMatches "x\nTODO\ny" (compileRegex ["TODO"] true)) ∧
    (∀ m ∈ findAllMatches "x\nTODO\ny" (compileRegex ["TODO"] true),
      (extractContextWindows "x\nTODO\ny" (compileRegex ["TODO"] true) 1).countP
        (fun w => decide (m ∈ w.«matches»)) = 1) ∧
    (∀ w ∈ extractContextWindows "x\nTODO\ny" (compileRegex ["TODO"] true) 1,
      ∀ m ∈ w.«matches», w.startLine ≤ m.line ∧ m.line ≤ w.endLine)) :=
  ⟨by decide,
    extractContextWindows_coverage "x\nTODO\ny" (compileRegex ["TODO"] true) 1
      (by decide)⟩

/-- C2: for every file content, pattern and radius, the window list of
`extractContextWindows` has consecutive windows separated by a gap
(`w2.startLine > w1.endLine + 1`, hence non-overlapping, non-adjacent and in
ascending `startLine` order), and every window satisfies
`startLine ≤ endLine` with all its matches' lines inside the range. -/
theorem extractContextWindows_ordered (content : String) (re : RegExpLit)
    (R : Nat) :
    List.Chain' (fun w1 w2 => w1.endLine + 1 < w2.startLine)
      (extractContextWindows content re R) ∧
    List.Pairwise (fun w1 w2 => w1.startLine < w2.startLine)
      (extractContextWindows content re R) ∧
    ∀ w ∈ extractContextWindows content re R,
      w.startLine ≤ w.endLine ∧
        ∀ m ∈ w.«matches», w.startLine ≤ m.line ∧ m.line ≤ w.endLine := by
  obtain ⟨hinv, hpair, _⟩ := extractContextWindows_spec content re R
  refine ⟨hpair.chain', ?_, hinv⟩
  refine hpair.imp_of_mem ?_
  intro a b ha hb h
  have := (hinv a ha).1
  omega

theorem mergeLoop_chain_id (lines : List String) :
    ∀ (ws : List ContextWindow) (w : ContextWindow),
      List.Chain' (fun w1 w2 => w1.endLine + 1 < w2.startLine) (w :: ws) →
      mergeLoop lines (some w) ws = w :: ws := by
  intro ws
  induction ws with
  | nil =>
    intro w _
    rfl
  | cons w' ws ih =>
    intro w hch
    rw [List.chain'_cons] at hch
    have hnot : ¬ (w'.startLine ≤ w.endLine + 1) := by omega
    have heq : mergeLoop lines (some w) (w' :: ws)
        = w :: mergeLoop lines (some w') ws := by
      simp only [mergeLoop, if_neg hnot]
    rw [heq, ih w' hch.2]

/-- C3: the merge sweep is a fixed point on its own output — running the
same sweep (merge when `next.startLine ≤ accumulator.endLine + 1`) again on
the window list produced by `extractContextWindows` returns it unchanged. -/
theorem mergeSweep_fixed_point (content : String) (re : RegExpLit) (R : Nat) :
    mergeLoop (jsSplitNewline content) none (extractContextWindows content re R)
      = extractContextWindows content re R := by
  obtain ⟨hinv, hpair, _⟩ := extractContextWindows_spec content re R
  cases hws : extractContextWindows content re R with
  | nil => rfl
  | cons w ws =>
    rw [hws] at hpair
    have hstep : mergeLoop (jsSplitNewline content) none (w :: ws)
        = mergeLoop (jsSplitNewline content) (some w) ws := rfl
    rw [hstep, mergeLoop_chain_id (jsSplitNewline content) ws w hpair.chain']

theorem consHead_ne_nil (c : Char) (xs : List (List Char)) : consHead c xs ≠ [] := by
  cases xs <;> simp [consHead]

theorem isRegexMeta_backslash : isRegexMeta '\\' = true := by decide

theorem isRegexMeta_pipe : isRegexMeta '|' = true := by decide

theorem parseAlts_escape (l : List Char) :
    ∀ (rest a : List Char) (as : List (List Char)),
      parseAlts rest = a :: as →
      parseAlts (escRegexChars l ++ rest) = (l ++ a) :: as := by
  induction l with
  | nil =>
    intro rest a as h
    simpa using h
  | cons c l' ih =>
    intro rest a as h
    rw [escRegexChars]
    by_cases hm : isRegexMeta c
    · rw [if_pos hm]
      show parseAlts ('\\' :: c :: (escRegexChars l' ++ rest)) = ((c :: l') ++ a) :: as
      have hstep : parseAlts ('\\' :: c :: (escRegexChars l' ++ rest))
          = consHead c (parseAlts (escRegexChars l' ++ rest)) := rfl
      rw [hstep, ih rest a as h]
      simp [consHead]
    · rw [if_neg hm]
      have hc1 : ¬ (c = '\\') := by
        intro he
        rw [he] at hm
        exact hm isRegexMeta_backslash
      have hc2 : ¬ (c = '|') := by
        intro he
        rw [he] at hm
        exact hm isRegexMeta_pipe
      show parseAlts (c :: (escRegexChars l' ++ rest)) = ((c :: l') ++ a) :: as
      rw [parseAlts.eq_def]
      simp only [if_neg hc1, if_neg hc2]
      rw [ih rest a as h]
      simp [consHead]

theorem parseAlts_join (ls : List String) :
    ls ≠ [] → parseAlts (jsJoin "|" (ls.map escRegex)).data = ls.map String.data := by
  induction ls with
  | nil =>
    intro h
    exact absurd rfl h
  | cons s rest ih =>
    intro _
    cases rest with
    | nil =>
      show parseAlts (escRegex s).data = [s.data]
      have hd : (escRegex s).data = escRegexChars s.data ++ [] := by
        rw [List.append_nil]
        exact List.toList_asString _
      rw [hd]
      have := parseAlts_escape s.data [] [] [] rfl
      simpa using this
    | cons t rest' =>
      have hJ : (jsJoin "|" ((s :: t :: rest').map escRegex)).data
          = escRegexChars s.data
            ++ ('|' :: (jsJoin "|" ((t :: rest').map escRegex)).data) := by
        show (escRegex s ++ "|" ++ jsJoin "|" ((t :: rest').map escRegex)).data = _
        rw [String.data_append, String.data_append]
        rw [show (escRegex s).data = escRegexChars s.data from List.toList_asString _]
        simp [List.append_assoc]
      rw [hJ]
      have hrest := ih (by simp)
      have hpipe : parseAlts ('|' :: (jsJoin "|" ((t :: rest').map escRegex)).data)
          = [] :: ((t :: rest').map String.data) := by
        rw [parseAlts.eq_def]
        simp only [if_neg (by decide : ¬ (('|' : Char) = '\\')), if_pos rfl]
        rw [hrest]
        simp
      have := parseAlts_escape s.data _ [] ((t :: rest').map String.data) hpipe
      simpa using this

theorem matchHere_false_iff (a : List Char) :
    ∀ s, matchHere false a s = true ↔ a <+: s := by
  induction a with
  | nil =>
    intro s
    simp [matchHere]
  | cons p ps ih =>
    intro s
    cases s with
    | nil =>
      simp [matchHere]
    | cons t ts =>
      rw [matchHere, List.cons_prefix_cons]
      simp [chMatch, ih ts]

theorem tryAlts_isSome_iff (alts : List (List Char)) :
    ∀ s, (tryAlts false alts s).isSome = true ↔ ∃ a ∈ alts, a <+: s := by
  induction alts with
  | nil =>
    intro s
    simp [tryAlts]
  | cons a rest ih =>
    intro s
    rw [tryAlts]
    by_cases hm : matchHere false a s
    · simp only [if_pos hm, Option.isSome_some, true_iff]
      exact ⟨a, List.mem_cons_self a rest, (matchHere_false_iff a s).mp hm⟩
    · rw [if_neg hm, ih s]
      constructor
      · rintro ⟨b, hb, hpre⟩
        exact ⟨b, List.mem_cons_of_mem a hb, hpre⟩
      · rintro ⟨b, hb, hpre⟩
        rcases List.mem_cons.mp hb with rfl | hb'
        · exact absurd ((matchHere_false_iff b s).mpr hpre) hm
        · exact ⟨b, hb', hpre⟩

theorem firstMatchAux_isSome_iff (re : RegExpLit) (text : List Char) :
    ∀ (fuel pos : Nat),
      (firstMatchAux re text pos fuel).isSome = true ↔
        ∃ k, k < fuel ∧
          (tryAlts re.ignoreCase re.alts (text.drop (pos + k))).isSome = true := by
  intro fuel
  induction fuel with
  | zero =>
    intro pos
    simp [firstMatchAux]
  | succ fuel ih =>
    intro pos
    rw [firstMatchAux]
    cases htry : tryAlts re.ignoreCase re.alts (text.drop pos) with
    | some len =>
      simp only [Option.isSome_some, true_iff]
      exact ⟨0, by omega, by rw [Nat.add_zero, htry]; rfl⟩
    | none =>
      show (firstMatchAux re text (pos + 1) fuel).isSome = true ↔ _
      rw [ih (pos + 1)]
      constructor
      · rintro ⟨k, hk, hsome⟩
        have harith : pos + 1 + k = pos + (k + 1) := by omega
        rw [harith] at hsome
        exact ⟨k + 1, by omega, hsome⟩
      · rintro ⟨k, hk, hsome⟩
        cases k with
        | zero =>
          rw [Nat.add_zero, htry] at hsome
          simp at hsome
        | succ k' =>
          have harith : pos + (k' + 1) = pos + 1 + k' := by omega
          rw [harith] at hsome
          exact ⟨k', by omega, hsome⟩

theorem prefixDrop_iff_isInfix (a tl : List Char) :
    (∃ k, k ≤ tl.length ∧ a <+: tl.drop k) ↔ a <:+: tl := by
  constructor
  · rintro ⟨k, _, hpre⟩
    exact hpre.isInfix.trans (List.drop_suffix k tl).isInfix
  · rintro ⟨s, u, rfl⟩
    refine ⟨s.length, ?_, ?_⟩
    · simp [List.length_append]
    · rw [List.append_assoc, List.drop_left]
      exact List.prefix_append a u

/-- C6: pattern compilation is literal-safe — for every nonempty list of
literal strings (metacharacters included), the compiled case-sensitive
matcher accepts a text exactly when the text contains one of the literals as
a verbatim substring. -/
theorem pattern_literal_safety (strings : List String) (text : String)
    (h : strings ≠ []) :
    regexTest (compileRegex strings true) text = true
      ↔ ∃ l ∈ strings, l.data <:+: text.data := by
  unfold regexTest firstMatchFrom
  rw [firstMatchAux_isSome_iff]
  have halts : (compileRegex strings true).alts = strings.map String.data :=
    parseAlts_join strings h
  rw [halts, show (compileRegex strings true).ignoreCase = false from rfl]
  constructor
  · rintro ⟨k, hk, hsome⟩
    rw [tryAlts_isSome_iff] at hsome
    obtain ⟨a, ha, hpre⟩ := hsome
    obtain ⟨l, hl, rfl⟩ := List.mem_map.mp ha
    refine ⟨l, hl, ?_⟩
    exact hpre.isInfix.trans (List.drop_suffix (0 + k) text.data).isInfix
  · rintro ⟨l, hl, hinf⟩
    obtain ⟨k, hk, hpre⟩ := (prefixDrop_iff_isInfix l.data text.data).mpr hinf
    refine ⟨k, by omega, ?_⟩
    rw [tryAlts_isSome_iff]
    exact ⟨l.data, List.mem_map_of_mem String.data hl, by simpa using hpre⟩

/-- C6 witness: the literal-safety theorem instantiated on the spec's
example literal `"a.b*c"` — it does not match `"aXbYYYc"`, and does match a
text containing the literal verbatim. -/
theorem pattern_literal_safety_witness :
    ((["a.b*c"] : List String) ≠ []) ∧
    regexTest (compileRegex ["a.b*c"] true) "aXbYYYc" = false ∧
    regexTest (compileRegex ["a.b*c"] true) "za.b*cy" = true := by
  refine ⟨by decide, ?_, ?_⟩
  · have h := pattern_literal_safety ["a.b*c"] "aXbYYYc" (by decide)
    cases hb : regexTest (compileRegex ["a.b*c"] true) "aXbYYYc" with
    | false => rfl
    | true => exact absurd (h.mp hb) (by decide)
  · exact (pattern_literal_safety ["a.b*c"] "za.b*cy" (by decide)).mpr
      ⟨"a.b*c", List.mem_cons_self _ _, by decide⟩

theorem autoTuneLoop_props (docs keywords : List String) (B : Nat) :
    ∀ (n l k t : Nat), l + k + t ≤ n → 1 ≤ l → 2 ≤ k → 3 ≤ t →
      (1 ≤ (Concept.autoTuneLoop docs keywords B l k t).1 ∧
       2 ≤ (Concept.autoTuneLoop docs keywords B l k t).2.1 ∧
       3 ≤ (Concept.autoTuneLoop docs keywords B l k t).2.2) ∧
      ((Concept.autoTuneLoop docs keywords B l k t).1 ≤ l ∧
       (Concept.autoTuneLoop docs keywords B l k t).2.1 ≤ k ∧
       (Concept.autoTuneLoop docs keywords B l k t).2.2 ≤ t) ∧
      (Concept.estimateTokensFor
          (docs.take (Concept.autoTuneLoop docs keywords B l k t).2.2)
          (keywords.take (Concept.autoTuneLoop docs keywords B l k t).2.1)
          (Concept.autoTuneLoop docs keywords B l k t).1 ≤ B ∨
        ((Concept.autoTuneLoop docs keywords B l k t).1 = 1 ∧
         (Concept.autoTuneLoop docs keywords B l k t).2.1 = 2 ∧
         (Concept.autoTuneLoop docs keywords B l k t).2.2 = 3)) ∧
      ((Concept.autoTuneLoop docs keywords B l k t).2.1 < k →
        (Concept.autoTuneLoop docs keywords B l k t).1 = 1) ∧
      ((Concept.autoTuneLoop docs keywords B l k t).2.2 < t →
        (Concept.autoTuneLoop docs keywords B l k t).1 = 1 ∧
        (Concept.autoTuneLoop docs keywords B l k t).2.1 = 2) := by
  intro n
  induction n with
  | zero =>
    intro l k t hsum h1 _ _
    exact absurd hsum (by omega)
  | succ n ih =>
    intro l k t hsum h1 h2 h3
    by_cases hstop : Concept.estimateTokensFor (docs.take t) (keywords.take k) l ≤ B
    · have heq : Concept.autoTuneLoop docs keywords B l k t = (l, k, t) := by
        rw [Concept.autoTuneLoop.eq_def]
        simp only [if_pos hstop]
      rw [heq]
      dsimp only
      refine ⟨⟨h1, h2, h3⟩, ⟨le_refl _, le_refl _, le_refl _⟩, Or.inl hstop,
        fun hlt => absurd hlt (by omega), fun hlt => absurd hlt (by omega)⟩
    · by_cases hl' : 1 < l
      · have heq : Concept.autoTuneLoop docs keywords B l k t
            = Concept.autoTuneLoop docs keywords B (max 1 (l - 1)) k t := by
          rw [Concept.autoTuneLoop.eq_def]
          simp only [if_neg hstop, dif_pos hl']
        rw [heq]
        obtain ⟨hA, hB, hC, hD, hE⟩ :=
          ih (max 1 (l - 1)) k t (by omega) (by omega) h2 h3
        exact ⟨hA, ⟨by omega, hB.2.1, hB.2.2⟩, hC, hD, hE⟩
      · by_cases hk' : 2 < k
        · have heq : Concept.autoTuneLoop docs keywords B l k t
              = Concept.autoTuneLoop docs keywords B l (max 2 (k - 1)) t := by
            rw [Concept.autoTuneLoop.eq_def]
            simp only [if_neg hstop, dif_neg hl', dif_pos hk']
          rw [heq]
          obtain ⟨hA, hB, hC, hD, hE⟩ :=
            ih l (max 2 (k - 1)) t (by omega) h1 (by omega) h3
          have hl1 : (Concept.autoTuneLoop docs keywords B l (max 2 (k - 1)) t).1 = 1 := by
            have := hA.1
            have := hB.1
            omega
          refine ⟨hA, ⟨hB.1, by omega, hB.2.2⟩, hC, fun _ => hl1, ?_⟩
          intro hlt
          exact ⟨hl1, (hE hlt).2⟩
        · by_cases ht' : 3 < t
          · have heq : Concept.autoTuneLoop docs keywords B l k t
                = Concept.autoTuneLoop docs keywords B l k (max 3 (t - 1)) := by
              rw [Concept.autoTuneLoop.eq_def]
              simp only [if_neg hstop, dif_neg hl', dif_neg hk', dif_pos ht']
            rw [heq]
            obtain ⟨hA, hB, hC, hD, hE⟩ :=
              ih l k (max 3 (t - 1)) (by omega) h1 h2 (by omega)
            have hl1 : (Concept.autoTuneLoop docs keywords B l k (max 3 (t - 1))).1 = 1 := by
              have := hA.1
              have := hB.1
              omega
            have hk2 : (Concept.autoTuneLoop docs keywords B l k (max 3 (t - 1))).2.1 = 2 := by
              have := hA.2.1
              have := hB.2.1
              omega
            exact ⟨hA, ⟨hB.1, hB.2.1, by omega⟩, hC, fun _ => hl1, fun _ => ⟨hl1, hk2⟩⟩
          · have heq : Concept.autoTuneLoop docs keywords B l k t = (l, k, t) := by
              rw [Concept.autoTuneLoop.eq_def]
              simp only [if_neg hstop, dif_neg hl', dif_neg hk', dif_neg ht']
            rw [heq]
            dsimp only
            refine ⟨⟨h1, h2, h3⟩, ⟨le_refl _, le_refl _, le_refl _⟩,
              Or.inr ⟨by omega, by omega, by omega⟩,
              fun hlt => absurd hlt (by omega), fun hlt => absurd hlt (by omega)⟩

/-- C8: for every token budget, the concept auto-tuner terminates (it is a
total function) and tightens parameters in the fixed priority order context
radius (floor 1), then keyword count (floor 2), then working-set size
(floor 3): on exit either the estimate is within the effective budget or all
three floors are reached; the tuned values never rise above their starting
values nor fall below the floors, keywords only shrink once the radius is at
its floor, and the working set only shrinks once radius and keywords are at
their floors. -/
theorem concept_autotune_spec (docs keywords : List String)
    (B l0 k0 t0 l' k' t' : Nat)
    (hl : 1 ≤ l0) (hk : 2 ≤ k0) (ht : 3 ≤ t0)
    (hrun : Concept.autoTuneLoop docs keywords B l0 k0 t0 = (l', k', t')) :
    (1 ≤ l' ∧ 2 ≤ k' ∧ 3 ≤ t') ∧
    (l' ≤ l0 ∧ k' ≤ k0 ∧ t' ≤ t0) ∧
    (Concept.estimateTokensFor (docs.take t') (keywords.take k') l' ≤ B ∨
      (l' = 1 ∧ k' = 2 ∧ t' = 3)) ∧
    (k' < k0 → l' = 1) ∧
    (t' < t0 → l' = 1 ∧ k' = 2) := by
  have := autoTuneLoop_props docs keywords B (l0 + k0 + t0) l0 k0 t0
    (le_refl _) hl hk ht
  rw [hrun] at this
  exact this

/-- C8 witness: the auto-tuner theorem instantiated on an empty corpus with
budget 0 and starting values (1, 2, 3); the loop stops immediately since the
estimate over no documents is 0. -/
theorem concept_autotune_spec_witness :
    ((1 : Nat) ≤ 1 ∧ (2 : Nat) ≤ 2 ∧ (3 : Nat) ≤ 3 ∧
      Concept.autoTuneLoop [] [] 0 1 2 3 = (1, 2, 3)) ∧
    (((1 : Nat) ≤ 1 ∧ (2 : Nat) ≤ 2 ∧ (3 : Nat) ≤ 3) ∧
     ((1 : Nat) ≤ 1 ∧ (2 : Nat) ≤ 2 ∧ (3 : Nat) ≤ 3) ∧
     (Concept.estimateTokensFor (List.take 3 ([] : List String))
        (List.take 2 ([] : List String)) 1 ≤ 0 ∨
       ((1 : Nat) = 1 ∧ (2 : Nat) = 2 ∧ (3 : Nat) = 3)) ∧
     ((2 : Nat) < 2 → (1 : Nat) = 1) ∧
     ((3 : Nat) < 3 → (1 : Nat) = 1 ∧ (2 : Nat) = 2)) := by
  have hrun : Concept.autoTuneLoop [] [] 0 1 2 3 = (1, 2, 3) := by
    rw [Concept.autoTuneLoop.eq_def]
    simp [Concept.estimateTokensFor]
  exact ⟨⟨by decide, by decide, by decide, hrun⟩,
    concept_autotune_spec [] [] 0 1 2 3 1 2 3 (by decide) (by decide) (by decide) hrun⟩

/-- C4 counterexample: scanning the literal `"aa"` in `"aaa"` does not yield
two match positions — the scanner resumes after the end of the matched text,
so only the leftmost occurrence is reported. -/
theorem findAllMatches_aa_in_aaa_not_two :
    ¬ ((findAllMatches "aaa" (compileRegex ["aa"] true)).length = 2) := by decide

/-- C4 (amended): scanning the literal `"aa"` in the single-line content
`"aaa"` yields exactly one MatchPosition, on line 1 at column 0 — the
leftmost match wins and scanning resumes immediately after the matched text,
so the overlapping second occurrence is not counted. -/
theorem findAllMatches_aa_in_aaa :
    findAllMatches "aaa" (compileRegex ["aa"] true) =
      [{ line := 1, column := 0, matchText := "aa" }] := by decide

/-- C5 counterexample: the two case-insensitive matches of
`["foo","bar"]` in `"FOO and BAR"` are not at columns 0 and 9. -/
theorem findAllMatches_foo_bar_columns_not_0_9 :
    ¬ ((findAllMatches "FOO and BAR" (compileRegex ["foo", "bar"] false)).map
        MatchPosition.column = [0, 9]) := by decide

/-- C5 (amended): searching `["foo","bar"]` case-insensitively in
`"FOO and BAR"` yields exactly two MatchPosition entries on line 1, one per
literal, at column 0 (`"FOO"`) and column 8 (`"BAR"`). -/
theorem findAllMatches_foo_bar_case_insensitive :
    findAllMatches "FOO and BAR" (compileRegex ["foo", "bar"] false) =
      [{ line := 1, column := 0, matchText := "FOO" },
       { line := 1, column := 8, matchText := "BAR" }] := by decide

/-- C7 counterexample: on a five-character text the reported token figure is
`Math.round(5/4) = 1`, not `ceil(5/4) = 2`. -/
theorem fileTokens_not_ceil :
    ¬ (fileTokens "aaaaa" = ("aaaaa".length + 3) / 4) := by decide

/-- C7 (amended): every reported token-count statistic — the per-file figure
and the final total — equals `round(characterCount / 4)`, i.e.
`floor((characterCount + 2) / 4)`, and the empty text gives 0. -/
theorem tokenStats_round (s : String) (n : Nat) :
    fileTokens s = (s.length + 2) / 4 ∧ totalTokensOf n = (n + 2) / 4 ∧
      fileTokens "" = 0 := by
  refine ⟨?_, ?_, by decide⟩ <;> simp only [fileTokens, totalTokensOf, jsRoundDiv] <;> omega

/-- C9: the three fatal outcome categories exit with pairwise distinct
non-zero status codes — invalid config input exits 1, "no candidate files"
exits 2, and "no content matches" exits 3. -/
theorem exitCode_distinct :
    exitCode .invalidConfig = 1 ∧ exitCode .noCandidates = 2 ∧
      exitCode .noMatches = 3 ∧ (∀ o : FatalOutcome, exitCode o ≠ 0) ∧
      exitCode .invalidConfig ≠ exitCode .noCandidates ∧
      exitCode .invalidConfig ≠ exitCode .noMatches ∧
      exitCode .noCandidates ≠ exitCode .noMatches := by
  refine ⟨rfl, rfl, rfl, ?_, by decide, by decide, by decide⟩
  intro o; cases o <;> decide

/-- C10: with no search strings, the `-l` context option is ignored for
every value — the per-file output equals the output with no `-l` at all, and
it is the whole-content emission (no context-window extraction). -/
theorem xmlOutput_ignores_lines_without_search (relPath content : String)
    (re : RegExpLit) (linesArg : Option Nat) :
    xmlFileOutput relPath content re (effectiveContextLines [] linesArg)
      = xmlFileOutput relPath content re (effectiveContextLines [] none)
    ∧ xmlFileOutput relPath content re (effectiveContextLines [] linesArg)
      = "<file path=\"" ++ relPath ++ "\">\n" ++ content ++ "\n</file>\n\n" :=
  ⟨rfl, rfl⟩

end Pack
